import Mathlib

/-!
Shallow embedding of the minesweeper engine in src/main.rs, with theorems
checking the natural-language specification against it.

Conventions of the embedding:
* Rust `usize` arithmetic becomes `Nat`; `saturating_sub` is `Nat` subtraction,
  `saturating_add` never overflows for the sizes involved, and
  `clamp(0, max)` becomes `min _ max`.
* A Rust `HashSet<usize>` that is only tested for membership (the mine set)
  becomes a `Finset Nat`; a `HashSet<usize>` that is iterated becomes a
  deduplicated `List Nat` (iteration order is arbitrary in Rust, and every
  theorem below that touches iteration is insensitive to the order).
* The mutable `&mut [Tile]` board becomes a `List Tile` threaded explicitly.
* The recursive reveal is modelled with an explicit fuel parameter returning
  `Option` (`none` = fuel exhausted); termination of the original recursion is
  the theorem that enough fuel always yields `some`.
-/

/-- Cell states, from the `Tile` enum of src/main.rs. -/
inductive Tile
  | Flagged
  | Concealed
  | Open (count : Nat)
deriving DecidableEq, Repr

/-- Outcome of one `Open` action of the main loop: either the game goes on or
the mine check fired ("You lost!"). -/
inductive OpenOutcome
  | Continued
  | Lost
deriving DecidableEq, Repr

/-- Neighbour computation from `get_neighbouring_indices` (src/main.rs lines
208-220): the eight linear offsets, with `saturating_sub` as truncated `Nat`
subtraction and `.clamp(0, max_index)` as `min _ max_index`, collected into a
set (modelled as a deduplicated list, standing for the `HashSet`). -/
def get_neighbouring_indices (index row_count col_count : Nat) : List Nat :=
  [index - (col_count + 1),
   index - col_count,
   index - (col_count - 1),
   index - 1,
   min (index + 1) (row_count * col_count - 1),
   min (index + (col_count - 1)) (row_count * col_count - 1),
   min (index + col_count) (row_count * col_count - 1),
   min (index + (col_count + 1)) (row_count * col_count - 1)].dedup

/-- Mine-adjacency count from `count_neighbouring_mines` (src/main.rs lines
222-232): the number of neighbour indices that are members of the bomb set. -/
def count_neighbouring_mines (tile_idx : Nat) (bomb_indices : Finset Nat)
    (row_count col_count : Nat) : Nat :=
  ((get_neighbouring_indices tile_idx row_count col_count).filter
    (fun idx => decide (idx ∈ bomb_indices))).length

/-- Candidate pool from `generate_mine_positions` (src/main.rs lines 191-206):
the range `0..row_count*col_count` filtered by the source's predicate
`!indices_to_avoid.contains(idx) || *idx != index_to_avoid` (the `||` is
exactly what the source writes). -/
def generate_mine_candidates (index_to_avoid row_count col_count : Nat) : List Nat :=
  (List.range (row_count * col_count)).filter
    (fun idx =>
      !(decide (idx ∈ get_neighbouring_indices index_to_avoid row_count col_count))
        || decide (idx ≠ index_to_avoid))

/-- Modelled from the rand crate contract for `choose_multiple` (the only part
of `generate_mine_positions` outside this repository): the sample is a set of
distinct elements of the iterated candidate pool, of size
`min count (pool size)`; which elements are chosen is random. A set `s`
satisfies this predicate iff it is a possible return value of
`generate_mine_positions count index_to_avoid row_count col_count`. -/
def is_generate_mine_positions_result (count index_to_avoid row_count col_count : Nat)
    (s : Finset Nat) : Prop :=
  (∀ x ∈ s, x ∈ generate_mine_candidates index_to_avoid row_count col_count) ∧
  s.card = min count (generate_mine_candidates index_to_avoid row_count col_count).length

/-- Validation and linear-index computation of `request_input` (src/main.rs
lines 163-174): a parsed `(row, col)` pair is rejected unless
`row < row_size && col < col_size`; an accepted pair is turned into the linear
index `row * row_size + col` (both the `f` and the `x` command use this same
expression). -/
def request_input_index (row col row_size col_size : Nat) : Option Nat :=
  if row ≥ row_size ∨ col ≥ col_size then none
  else some (row * row_size + col)

/-- Per-cell toggle of `flag_tile`: the match of src/main.rs lines 113-117. -/
def flagToggle : Tile → Tile
  | Tile.Flagged => Tile.Concealed
  | Tile.Concealed => Tile.Flagged
  | Tile.Open count => Tile.Open count

/-- Flag toggle from `flag_tile` (src/main.rs lines 112-118). Out-of-range
reads are given the default `Concealed` (the Rust code would panic there; every
theorem about `flag_tile` assumes the index is in range). -/
def flag_tile (board : List Tile) (tile_idx : Nat) : List Tile :=
  board.set tile_idx (flagToggle (board.getD tile_idx Tile.Concealed))

/-- Body of one iteration of the `for` loop of `reveal_recoursively`
(src/main.rs lines 92-107), up to but not including the nested recursive call:
if the tile is `Concealed` it is opened with its mine count and, when that
count is zero, its still-concealed neighbours are appended to the accumulated
frontier; otherwise board and frontier are unchanged. -/
def revealStep (mines : Finset Nat) (row_count col_count : Nat)
    (board : List Tile) (tile_idx : Nat) (acc : List Nat) : List Tile × List Nat :=
  if board.getD tile_idx Tile.Concealed = Tile.Concealed then
    let n := count_neighbouring_mines tile_idx mines row_count col_count
    let board2 := board.set tile_idx (Tile.Open n)
    let acc2 :=
      if n = 0 then
        acc ++ ((get_neighbouring_indices tile_idx row_count col_count).filter
          (fun idx => decide (board2.getD idx Tile.Concealed = Tile.Concealed)))
      else acc
    (board2, acc2)
  else (board, acc)

/-- The `for` loop of `reveal_recoursively` (src/main.rs lines 92-109): each
tile of the worklist is processed by `revealStep`, then the recursion (passed
in as `f`, applied to the accumulated frontier) runs, and the loop continues on
the remaining tiles with the same accumulated frontier — faithfully mirroring
that the source places the recursive call inside the loop body. -/
def revealLoop (mines : Finset Nat) (row_count col_count : Nat)
    (f : List Tile → List Nat → Option (List Tile)) :
    List Tile → List Nat → List Nat → Option (List Tile)
  | board, [], _ => some board
  | board, tile_idx :: rest, acc =>
    let p := revealStep mines row_count col_count board tile_idx acc
    match f p.1 p.2 with
    | none => none
    | some board2 => revealLoop mines row_count col_count f board2 rest p.2

/-- Fuel-indexed embedding of `reveal_recoursively` (src/main.rs lines 80-110):
an empty worklist returns immediately, otherwise the loop runs with the
recursion at one less fuel. `none` means the fuel ran out; the termination
theorem below shows fuel `concealedCount board + 2` always suffices. -/
def reveal_recoursively (mines : Finset Nat) (row_count col_count : Nat) :
    Nat → List Tile → List Nat → Option (List Tile)
  | 0, _, _ => none
  | fuel + 1, board, tiles_to_reveal =>
    if tiles_to_reveal = [] then some board
    else
      revealLoop mines row_count col_count
        (fun b s => reveal_recoursively mines row_count col_count fuel b s)
        board tiles_to_reveal []

/-- Number of `Concealed` cells of a board; the measure that bounds the depth
of the reveal recursion. -/
def concealedCount (board : List Tile) : Nat :=
  board.countP (fun t => decide (t = Tile.Concealed))

/-- Embedding of `reveal_tiles` (src/main.rs lines 70-78): start the recursion
on the singleton worklist, with enough fuel (by the termination theorem the
`Option` is always `some`). -/
def reveal_tiles (board : List Tile) (tile_idx : Nat) (mines : Finset Nat)
    (row_count col_count : Nat) : Option (List Tile) :=
  reveal_recoursively mines row_count col_count (concealedCount board + 2)
    board [tile_idx]

/-- The `InputAction::Open` branch of the main loop for a session whose mine
set has already been placed (src/main.rs lines 59-64): if the index is a mine
the game reports the loss and stops with the board untouched; otherwise the
reveal cascade runs. Note the branch inspects only the mine set, never the
flag state of the chosen tile. -/
def session_open (board : List Tile) (tile_index : Nat) (mines : Finset Nat)
    (row_count col_count : Nat) : List Tile × OpenOutcome :=
  if tile_index ∈ mines then (board, OpenOutcome.Lost)
  else ((reveal_tiles board tile_index mines row_count col_count).getD board,
        OpenOutcome.Continued)

/-- Genuine 8-adjacency of two linear indices of a row-major grid with
`col_count` columns: distinct cells whose rows and columns each differ by at
most one. This is the geometric notion against which the neighbour set of the
source is compared. -/
def isEightAdjacent (i j col_count : Nat) : Prop :=
  i ≠ j ∧
  i / col_count ≤ j / col_count + 1 ∧ j / col_count ≤ i / col_count + 1 ∧
  i % col_count ≤ j % col_count + 1 ∧ j % col_count ≤ i % col_count + 1

instance (i j col_count : Nat) : Decidable (isEightAdjacent i j col_count) := by
  unfold isEightAdjacent
  infer_instance

/-- C1: the claim says every accepted action's linear index is at most
`row_count*col_count - 1`. With the dimensions of `main` (`row_count = 10`,
`col_count = 5`, board length `50`), the accepted input row 9, col 0 is mapped
to `9 * 10 + 0 = 90`, which exceeds the last valid board index 49: the board
accesses of `flag_tile` and of the reveal cascade would panic in Rust. -/
theorem c1_index_out_of_bounds :
    request_input_index 9 0 10 5 = some 90 ∧
    (List.replicate (10 * 5) Tile.Concealed).length = 50 ∧
    ¬ (90 ≤ 10 * 5 - 1) := by
  decide

/-- C2: the claim says every placed mine differs from the origin and is not a
neighbour of the origin. The source filter `!contains(idx) || idx != origin`
excludes nothing for the centre origin 4 of a 3x3 grid: the candidate pool is
the whole grid, the pool contains the origin, and with `count = 9` the sample
is forced to be the whole pool, so the origin itself (and all its neighbours)
are mined and the first open action at the origin hits a mine. -/
theorem c2_origin_in_mine_pool :
    generate_mine_candidates 4 3 3 = List.range 9 ∧
    4 ∈ generate_mine_candidates 4 3 3 ∧
    is_generate_mine_positions_result 9 4 3 3 (Finset.range 9) ∧
    4 ∈ Finset.range 9 := by
  refine ⟨by decide, by decide, ⟨?_, ?_⟩, by decide⟩ <;> decide

/-- C3: the claim says the number of placed mines is
`min k (R*C - 1 - |neighbors(origin)|)`. For origin 4 on a 3x3 grid with
`k = 9` that formula gives `min 9 (9 - 1 - 8) = 0`, but the source's candidate
pool has all 9 cells (its filter excludes nothing here), so `choose_multiple`
places `min 9 9 = 9` mines. -/
theorem c3_mine_count_mismatch :
    (generate_mine_candidates 4 3 3).length = 9 ∧
    (get_neighbouring_indices 4 3 3).length = 8 ∧
    min 9 (3 * 3 - 1 - (get_neighbouring_indices 4 3 3).length) = 0 ∧
    min 9 (generate_mine_candidates 4 3 3).length = 9 := by
  decide

/-- C10: the neighbour set of the source contains members that are not
8-adjacent cells: index 0 is its own neighbour (saturating subtraction) on any
grid, and on the 10x5 grid of `main` the set of cell 47 (row 9, col 2)
contains the clamped maximum index 49 (row 9, col 4), which is not adjacent;
this spurious member is counted by `count_neighbouring_mines`. -/
theorem c10_spurious_neighbours :
    (∀ row_count col_count : Nat,
      0 ∈ get_neighbouring_indices 0 row_count col_count) ∧
    0 ∈ get_neighbouring_indices 0 10 5 ∧
    49 ∈ get_neighbouring_indices 47 10 5 ∧
    ¬ isEightAdjacent 47 49 5 ∧
    count_neighbouring_mines 47 {49} 10 5 = 1 := by
  refine ⟨?_, by decide, by decide, by decide, by decide⟩
  intro row_count col_count
  simp [get_neighbouring_indices, List.mem_dedup, Nat.zero_sub]

theorem list_getD_set_self {α : Type} (l : List α) (i : Nat) (x d : α)
    (h : i < l.length) : (l.set i x).getD i d = x := by
  induction l generalizing i with
  | nil => simp at h
  | cons a tl ih =>
    cases i with
    | zero => rfl
    | succ j => simpa using ih j (by simpa using h)

theorem list_getD_set_ne {α : Type} (l : List α) (i j : Nat) (x d : α)
    (h : i ≠ j) : (l.set i x).getD j d = l.getD j d := by
  induction l generalizing i j with
  | nil => rfl
  | cons a tl ih =>
    cases i with
    | zero =>
      cases j with
      | zero => exact absurd rfl h
      | succ k => rfl
    | succ i' =>
      cases j with
      | zero => rfl
      | succ k => simpa using ih i' k (by omega)

theorem list_set_getD_self {α : Type} (l : List α) (i : Nat) (d : α)
    (h : i < l.length) : l.set i (l.getD i d) = l := by
  induction l generalizing i with
  | nil => rfl
  | cons a tl ih =>
    cases i with
    | zero => rfl
    | succ j => simpa using ih j (by simpa using h)

theorem list_set_set {α : Type} (l : List α) (i : Nat) (x y : α) :
    (l.set i x).set i y = l.set i y := by
  induction l generalizing i with
  | nil => rfl
  | cons a tl ih =>
    cases i with
    | zero => rfl
    | succ j => simpa using ih j

theorem list_length_set {α : Type} (l : List α) (i : Nat) (x : α) :
    (l.set i x).length = l.length := by
  induction l generalizing i with
  | nil => rfl
  | cons a tl ih =>
    cases i with
    | zero => rfl
    | succ j => simpa using ih j

/-- C9: the flag operation toggles `Concealed` and `Flagged` (so two
consecutive flags are the identity) and leaves an `Open` cell exactly as it
was; given an in-range index it always succeeds. -/
theorem c9_flag_toggle (board : List Tile) (idx : Nat) (h : idx < board.length) :
    (board.getD idx Tile.Concealed = Tile.Concealed →
      (flag_tile board idx).getD idx Tile.Concealed = Tile.Flagged) ∧
    (board.getD idx Tile.Concealed = Tile.Flagged →
      (flag_tile board idx).getD idx Tile.Concealed = Tile.Concealed) ∧
    flag_tile (flag_tile board idx) idx = board ∧
    (∀ n, board.getD idx Tile.Concealed = Tile.Open n →
      flag_tile board idx = board) := by
  refine ⟨?_, ?_, ?_, ?_⟩
  · intro hc
    rw [flag_tile, hc, list_getD_set_self _ _ _ _ h]
    rfl
  · intro hc
    rw [flag_tile, hc, list_getD_set_self _ _ _ _ h]
    rfl
  · show flag_tile (board.set idx (flagToggle (board.getD idx Tile.Concealed))) idx = board
    rw [flag_tile,
      list_getD_set_self _ _ _ _ h,
      list_set_set]
    have htog : flagToggle (flagToggle (board.getD idx Tile.Concealed)) =
        board.getD idx Tile.Concealed := by
      cases board.getD idx Tile.Concealed <;> rfl
    rw [htog, list_set_getD_self _ _ _ h]
  · intro n hc
    rw [flag_tile, hc]
    show board.set idx (Tile.Open n) = board
    rw [← hc, list_set_getD_self _ _ _ h]

theorem c9_flag_toggle_witness :
    ((flag_tile [Tile.Concealed, Tile.Open 2] 0).getD 0 Tile.Concealed = Tile.Flagged) ∧
    flag_tile (flag_tile [Tile.Concealed, Tile.Open 2] 0) 0 = [Tile.Concealed, Tile.Open 2] ∧
    flag_tile [Tile.Concealed, Tile.Open 2] 1 = [Tile.Concealed, Tile.Open 2] :=
  ⟨(c9_flag_toggle [Tile.Concealed, Tile.Open 2] 0 (by decide)).1 (by decide),
   (c9_flag_toggle [Tile.Concealed, Tile.Open 2] 0 (by decide)).2.2.1,
   (c9_flag_toggle [Tile.Concealed, Tile.Open 2] 1 (by decide)).2.2.2 2 (by decide)⟩

/-- C5: once the mine set is placed, opening an index that is a mine always
takes the loss branch of the main loop: the outcome is `Lost` and the board is
returned untouched (no cell is mutated to `Open`). -/
theorem c5_loss_determinism (board : List Tile) (mines : Finset Nat)
    (row_count col_count tile_index : Nat) (h : tile_index ∈ mines) :
    session_open board tile_index mines row_count col_count =
      (board, OpenOutcome.Lost) := by
  simp [session_open, h]

theorem c5_loss_determinism_witness :
    session_open [Tile.Concealed, Tile.Concealed] 1 {1} 1 2 =
      ([Tile.Concealed, Tile.Concealed], OpenOutcome.Lost) :=
  c5_loss_determinism [Tile.Concealed, Tile.Concealed] {1} 1 2 1 (by decide)

/-- C4, counterexample: the claim says an open intent on a flagged cell causes
no loss. But the open branch of the main loop checks only the mine set: on a
one-cell board whose single cell is `Flagged` and is a mine, the open action
on it yields `Lost`. -/
theorem c4_flagged_open_loses :
    ([Tile.Flagged].getD 0 Tile.Concealed = Tile.Flagged) ∧
    session_open [Tile.Flagged] 0 {0} 1 1 = ([Tile.Flagged], OpenOutcome.Lost) := by
  decide

theorem list_set_oob {α : Type} (l : List α) (i : Nat) (x : α)
    (h : l.length ≤ i) : l.set i x = l := by
  induction l generalizing i with
  | nil => rfl
  | cons a tl ih =>
    cases i with
    | zero => simp at h
    | succ j => simpa using ih j (by simpa using h)

/-- One-way evolution of a board under the reveal cascade: each step turns a
cell that currently reads `Concealed` into `Open n` (an out-of-range write is
a no-op, as with List.set). Every board produced by the reveal functions
evolves from their input board; the frame facts of the claims follow from
this relation. -/
inductive BoardEvolves : List Tile → List Tile → Prop
  | refl (b : List Tile) : BoardEvolves b b
  | step (b : List Tile) (i n : Nat) (b' : List Tile)
      (hc : b.getD i Tile.Concealed = Tile.Concealed)
      (h : BoardEvolves (b.set i (Tile.Open n)) b') : BoardEvolves b b'

theorem BoardEvolves.trans {a b c : List Tile}
    (h1 : BoardEvolves a b) (h2 : BoardEvolves b c) : BoardEvolves a c := by
  induction h1 generalizing c with
  | refl => exact h2
  | step b0 i n b1 hc h ih => exact BoardEvolves.step _ i n _ hc (ih h2)

theorem BoardEvolves.length_eq {a b : List Tile} (h : BoardEvolves a b) :
    b.length = a.length := by
  induction h with
  | refl => rfl
  | step b0 i n b1 hc h ih => rw [ih, list_length_set]

theorem BoardEvolves.getD_preserved : ∀ {a b : List Tile}, BoardEvolves a b →
    ∀ i : Nat, a.getD i Tile.Concealed ≠ Tile.Concealed →
    b.getD i Tile.Concealed = a.getD i Tile.Concealed := by
  intro a b h
  induction h with
  | refl => intro i hi; rfl
  | step b0 j n b1 hc h ih =>
    intro i hi
    by_cases hij : j = i
    · subst hij; exact absurd hc hi
    · have hne : (b0.set j (Tile.Open n)).getD i Tile.Concealed =
          b0.getD i Tile.Concealed := list_getD_set_ne _ _ _ _ _ hij
      rw [ih i (by rw [hne]; exact hi), hne]

theorem concealedCount_set_open (l : List Tile) (i n : Nat)
    (hc : l.getD i Tile.Concealed = Tile.Concealed) (hi : i < l.length) :
    concealedCount (l.set i (Tile.Open n)) + 1 = concealedCount l := by
  induction l generalizing i with
  | nil => simp at hi
  | cons a tl ih =>
    cases i with
    | zero =>
      have ha : a = Tile.Concealed := hc
      subst ha
      simp [concealedCount, List.countP_cons]
    | succ j =>
      have hc' : tl.getD j Tile.Concealed = Tile.Concealed := hc
      have hih := ih j hc' (by simpa using hi)
      show concealedCount (a :: tl.set j (Tile.Open n)) + 1 = concealedCount (a :: tl)
      simp only [concealedCount, List.countP_cons] at hih ⊢
      omega

theorem BoardEvolves.concealedCount_le : ∀ {a b : List Tile}, BoardEvolves a b →
    concealedCount b ≤ concealedCount a := by
  intro a b h
  induction h with
  | refl => exact le_refl _
  | step b0 i n b1 hc h ih =>
    by_cases hi : i < b0.length
    · have := concealedCount_set_open b0 i n hc hi
      omega
    · rw [list_set_oob b0 i _ (by omega)] at ih
      exact ih

theorem BoardEvolves.concealedCount_lt : ∀ {a b : List Tile}, BoardEvolves a b →
    ∀ i : Nat, i < a.length → a.getD i Tile.Concealed = Tile.Concealed →
    b.getD i Tile.Concealed ≠ Tile.Concealed →
    concealedCount b < concealedCount a := by
  intro a b h
  induction h with
  | refl => intro i _ hC hnC; exact absurd hC hnC
  | step b0 j n b1 hc h ih =>
    intro i hi hC hnC
    by_cases hj : j < b0.length
    · have h1 := concealedCount_set_open b0 j n hc hj
      have h2 := BoardEvolves.concealedCount_le h
      omega
    · rw [list_set_oob b0 j _ (by omega)] at ih
      exact ih i hi hC hnC

theorem revealStep_spec (m : Finset Nat) (R C : Nat) (b : List Tile) (t : Nat)
    (acc : List Nat) :
    (b.getD t Tile.Concealed = Tile.Concealed ∧
      revealStep m R C b t acc =
        (b.set t (Tile.Open (count_neighbouring_mines t m R C)),
         if count_neighbouring_mines t m R C = 0 then
           acc ++ ((get_neighbouring_indices t R C).filter
             (fun idx => decide ((b.set t (Tile.Open (count_neighbouring_mines t m R C))).getD
               idx Tile.Concealed = Tile.Concealed)))
         else acc)) ∨
    (b.getD t Tile.Concealed ≠ Tile.Concealed ∧ revealStep m R C b t acc = (b, acc)) := by
  by_cases hc : b.getD t Tile.Concealed = Tile.Concealed
  · left
    exact ⟨hc, by rw [revealStep, if_pos hc]⟩
  · right
    exact ⟨hc, by rw [revealStep, if_neg hc]⟩

theorem revealStep_length (m : Finset Nat) (R C : Nat) (b : List Tile) (t : Nat)
    (acc : List Nat) : (revealStep m R C b t acc).1.length = b.length := by
  rcases revealStep_spec m R C b t acc with ⟨hc, heq⟩ | ⟨hc, heq⟩ <;>
    simp [heq, list_length_set]

theorem revealStep_evolves (m : Finset Nat) (R C : Nat) (b : List Tile) (t : Nat)
    (acc : List Nat) : BoardEvolves b (revealStep m R C b t acc).1 := by
  rcases revealStep_spec m R C b t acc with ⟨hc, heq⟩ | ⟨hc, heq⟩
  · rw [heq]
    exact BoardEvolves.step _ t _ _ hc (BoardEvolves.refl _)
  · rw [heq]
    exact BoardEvolves.refl _

theorem mem_get_neighbouring_indices_lt (t j R C : Nat) (ht : t < R * C)
    (hj : j ∈ get_neighbouring_indices t R C) : j < R * C := by
  simp only [get_neighbouring_indices, List.mem_dedup, List.mem_cons,
    List.not_mem_nil, or_false] at hj
  rcases hj with rfl | rfl | rfl | rfl | rfl | rfl | rfl | rfl <;> omega

theorem revealStep_acc_mem (m : Finset Nat) (R C : Nat) (b : List Tile) (t : Nat)
    (acc : List Nat) (hacc : ∀ x ∈ acc, x < b.length)
    (hb : b.length = R * C) (ht : t < b.length) :
    ∀ x ∈ (revealStep m R C b t acc).2, x < b.length := by
  rcases revealStep_spec m R C b t acc with ⟨hc, heq⟩ | ⟨hc, heq⟩
  · simp only [heq]
    intro x hx
    split at hx
    · rcases List.mem_append.mp hx with hx2 | hx2
      · exact hacc x hx2
      · have hxm := (List.mem_filter.mp hx2).1
        have := mem_get_neighbouring_indices_lt t x R C (by omega) hxm
        omega
    · exact hacc x hx
  · simp only [heq]
    exact hacc

theorem revealLoop_evolves (m : Finset Nat) (R C : Nat)
    (f : List Tile → List Nat → Option (List Tile))
    (hf : ∀ b S b', f b S = some b' → BoardEvolves b b') :
    ∀ (S : List Nat) (b : List Tile) (acc : List Nat) (b' : List Tile),
      revealLoop m R C f b S acc = some b' → BoardEvolves b b' := by
  intro S
  induction S with
  | nil =>
    intro b acc b' h
    simp only [revealLoop] at h
    cases h
    exact BoardEvolves.refl _
  | cons t rest ih =>
    intro b acc b' h
    simp only [revealLoop] at h
    rcases hm : f (revealStep m R C b t acc).1 (revealStep m R C b t acc).2 with _ | b2
    · rw [hm] at h; cases h
    · rw [hm] at h
      exact (revealStep_evolves m R C b t acc).trans
        ((hf _ _ _ hm).trans (ih b2 _ b' h))

theorem reveal_recoursively_evolves (m : Finset Nat) (R C : Nat) :
    ∀ (fuel : Nat) (b : List Tile) (S : List Nat) (b' : List Tile),
      reveal_recoursively m R C fuel b S = some b' → BoardEvolves b b' := by
  intro fuel
  induction fuel with
  | zero =>
    intro b S b' h
    simp [reveal_recoursively] at h
  | succ g ih =>
    intro b S b' h
    simp only [reveal_recoursively] at h
    by_cases hS : S = []
    · rw [if_pos hS] at h
      cases h
      exact BoardEvolves.refl _
    · rw [if_neg hS] at h
      exact revealLoop_evolves m R C _ (fun b0 S0 b0' h0 => ih b0 S0 b0' h0) S b [] b' h

theorem revealLoop_processed (m : Finset Nat) (R C : Nat)
    (f : List Tile → List Nat → Option (List Tile))
    (hf : ∀ b S b', f b S = some b' → BoardEvolves b b') :
    ∀ (S : List Nat) (b : List Tile) (acc : List Nat) (b' : List Tile),
      revealLoop m R C f b S acc = some b' →
      ∀ t ∈ S, t < b.length → b'.getD t Tile.Concealed ≠ Tile.Concealed := by
  intro S
  induction S with
  | nil =>
    intro b acc b' h t ht
    simp at ht
  | cons u rest ih =>
    intro b acc b' h t ht htl
    simp only [revealLoop] at h
    rcases hm : f (revealStep m R C b u acc).1 (revealStep m R C b u acc).2 with _ | b2
    · rw [hm] at h; cases h
    · rw [hm] at h
      have hev2 : BoardEvolves (revealStep m R C b u acc).1 b2 := hf _ _ _ hm
      have hev3 : BoardEvolves b2 b' := revealLoop_evolves m R C f hf rest b2 _ b' h
      rcases List.mem_cons.mp ht with rfl | hmem
      · have hstep : (revealStep m R C b t acc).1.getD t Tile.Concealed ≠
            Tile.Concealed := by
          rcases revealStep_spec m R C b t acc with ⟨hc, heq⟩ | ⟨hc, heq⟩
          · simp only [heq]
            rw [list_getD_set_self _ _ _ _ htl]
            simp
          · simp only [heq]
            exact hc
        have h2 := BoardEvolves.getD_preserved hev2 t hstep
        have h3 := BoardEvolves.getD_preserved hev3 t (by rw [h2]; exact hstep)
        rw [h3, h2]
        exact hstep
      · apply ih b2 _ b' h t hmem
        have hl : b2.length = b.length := by
          rw [hev2.length_eq, revealStep_length]
        rw [hl]
        exact htl

theorem revealLoop_isSome (m : Finset Nat) (R C : Nat)
    (f : List Tile → List Nat → Option (List Tile)) (F : Nat)
    (hf_ev : ∀ b S b', f b S = some b' → BoardEvolves b b')
    (hf_nil : ∀ b : List Tile, 1 ≤ F → (f b []).isSome = true)
    (hf_some : ∀ (b : List Tile) (S : List Nat), b.length = R * C →
      (∀ t ∈ S, t < b.length) → concealedCount b + 2 ≤ F →
      (f b S).isSome = true) :
    ∀ (S : List Nat) (b : List Tile) (acc : List Nat),
      b.length = R * C → (∀ t ∈ S, t < b.length) → (∀ t ∈ acc, t < b.length) →
      (acc = [] → concealedCount b + 1 ≤ F) →
      (acc ≠ [] → concealedCount b + 2 ≤ F) →
      (revealLoop m R C f b S acc).isSome = true := by
  intro S
  induction S with
  | nil =>
    intro b acc hlen hS hacc h0 h1
    simp [revealLoop]
  | cons t rest ih =>
    intro b acc hlen hS hacc h0 h1
    have ht : t < b.length := hS t (List.mem_cons_self t rest)
    have hccF : concealedCount b + 1 ≤ F := by
      by_cases ha : acc = []
      · exact h0 ha
      · have := h1 ha; omega
    have hmem2 : ∀ x ∈ (revealStep m R C b t acc).2, x < b.length :=
      revealStep_acc_mem m R C b t acc hacc hlen ht
    have hlen1 : (revealStep m R C b t acc).1.length = R * C := by
      rw [revealStep_length]; exact hlen
    have hcc1 : concealedCount (revealStep m R C b t acc).1 ≤ concealedCount b :=
      (revealStep_evolves m R C b t acc).concealedCount_le
    have hnest : (f (revealStep m R C b t acc).1 (revealStep m R C b t acc).2).isSome
        = true := by
      rcases revealStep_spec m R C b t acc with ⟨hc, heq⟩ | ⟨hc, heq⟩
      · have hccstep : concealedCount (revealStep m R C b t acc).1 + 1 =
            concealedCount b := by
          rw [heq]
          exact concealedCount_set_open b t _ hc ht
        apply hf_some _ _ hlen1
        · intro x hx
          have := hmem2 x hx
          omega
        · omega
      · rw [heq]
        by_cases ha : acc = []
        · subst ha
          exact hf_nil b (by omega)
        · apply hf_some b acc hlen
          · exact hacc
          · exact h1 ha
    simp only [revealLoop]
    rcases hm : f (revealStep m R C b t acc).1 (revealStep m R C b t acc).2 with _ | b2
    · rw [hm] at hnest; simp at hnest
    · show (revealLoop m R C f b2 rest (revealStep m R C b t acc).2).isSome = true
      have hev : BoardEvolves (revealStep m R C b t acc).1 b2 := hf_ev _ _ _ hm
      have hlen2 : b2.length = R * C := by rw [hev.length_eq]; exact hlen1
      have hcc2 : concealedCount b2 ≤ concealedCount (revealStep m R C b t acc).1 :=
        hev.concealedCount_le
      apply ih b2 (revealStep m R C b t acc).2 hlen2
      · intro x hx
        have := hS x (List.mem_cons_of_mem t hx)
        omega
      · intro x hx
        have := hmem2 x hx
        omega
      · intro _
        omega
      · intro ha2
        rcases revealStep_spec m R C b t acc with ⟨hc, heq⟩ | ⟨hc, heq⟩
        · have hccstep : concealedCount (revealStep m R C b t acc).1 + 1 =
              concealedCount b := by
            rw [heq]
            exact concealedCount_set_open b t _ hc ht
          omega
        · have haeq : (revealStep m R C b t acc).2 = acc := by rw [heq]
          rw [haeq] at ha2
          have := h1 ha2
          omega

theorem reveal_recoursively_isSome (m : Finset Nat) (R C : Nat) :
    ∀ (fuel : Nat) (b : List Tile) (S : List Nat),
      b.length = R * C → (∀ t ∈ S, t < b.length) → concealedCount b + 2 ≤ fuel →
      (reveal_recoursively m R C fuel b S).isSome = true := by
  intro fuel
  induction fuel with
  | zero =>
    intro b S hlen hS hcc
    omega
  | succ g ih =>
    intro b S hlen hS hcc
    simp only [reveal_recoursively]
    by_cases hSnil : S = []
    · rw [if_pos hSnil]
      rfl
    · rw [if_neg hSnil]
      refine revealLoop_isSome m R C _ g ?_ ?_ ?_ S b [] hlen hS ?_ ?_ ?_
      · exact fun b0 S0 b0' h0 => reveal_recoursively_evolves m R C g b0 S0 b0' h0
      · intro b0 hg
        cases g with
        | zero => omega
        | succ g2 =>
          simp [reveal_recoursively]
      · exact fun b0 S0 h1 h2 h3 => ih b0 S0 h1 h2 h3
      · intro x hx
        simp at hx
      · intro _
        omega
      · intro hne
        exact absurd rfl hne

theorem reveal_recoursively_succ (m : Finset Nat) (R C fuel : Nat) (b : List Tile)
    (S : List Nat) (hS : S ≠ []) :
    reveal_recoursively m R C (fuel + 1) b S =
      revealLoop m R C (fun b0 s0 => reveal_recoursively m R C fuel b0 s0) b S [] := by
  simp only [reveal_recoursively]
  rw [if_neg hS]

theorem reveal_tiles_processed (board : List Tile) (mines : Finset Nat)
    (row_count col_count idx : Nat) (board' : List Tile)
    (h : reveal_tiles board idx mines row_count col_count = some board')
    (hidx : idx < board.length) :
    board'.getD idx Tile.Concealed ≠ Tile.Concealed := by
  unfold reveal_tiles at h
  rw [show concealedCount board + 2 = (concealedCount board + 1) + 1 from rfl,
    reveal_recoursively_succ mines row_count col_count _ board [idx] (by simp)] at h
  exact revealLoop_processed mines row_count col_count _
    (fun b0 S0 b0' h0 =>
      reveal_recoursively_evolves mines row_count col_count _ b0 S0 b0' h0)
    [idx] board [] board' h idx (List.mem_singleton.mpr rfl) hidx

theorem reveal_tiles_noop_of_not_concealed (board : List Tile) (mines : Finset Nat)
    (row_count col_count idx : Nat)
    (h : board.getD idx Tile.Concealed ≠ Tile.Concealed) :
    reveal_tiles board idx mines row_count col_count = some board := by
  have hrec : reveal_recoursively mines row_count col_count
      (concealedCount board + 1) board [] = some board := by
    simp [reveal_recoursively]
  unfold reveal_tiles
  rw [show concealedCount board + 2 = (concealedCount board + 1) + 1 from rfl,
    reveal_recoursively_succ mines row_count col_count _ board [idx] (by simp)]
  simp only [revealLoop]
  rcases revealStep_spec mines row_count col_count board idx [] with ⟨hc, _⟩ | ⟨_, heq⟩
  · exact absurd hc h
  · rw [heq]
    simp only [hrec]

/-- C6: after the reveal cascade runs from a valid origin, every previously
`Open` cell is still `Open` with the same count, and if the origin was
`Concealed` the number of `Concealed` cells strictly decreases. -/
theorem c6_reveal_monotonicity (board : List Tile) (mines : Finset Nat)
    (row_count col_count origin : Nat) (board' : List Tile)
    (horigin : origin < board.length)
    (hrun : reveal_tiles board origin mines row_count col_count = some board') :
    (∀ i n, board.getD i Tile.Concealed = Tile.Open n →
      board'.getD i Tile.Concealed = Tile.Open n) ∧
    (board.getD origin Tile.Concealed = Tile.Concealed →
      concealedCount board' < concealedCount board) := by
  have hev : BoardEvolves board board' := by
    unfold reveal_tiles at hrun
    exact reveal_recoursively_evolves mines row_count col_count _ board [origin]
      board' hrun
  constructor
  · intro i n hopen
    have hne : board.getD i Tile.Concealed ≠ Tile.Concealed := by rw [hopen]; simp
    rw [hev.getD_preserved i hne, hopen]
  · intro hconc
    have hproc := reveal_tiles_processed board mines row_count col_count origin
      board' hrun horigin
    exact hev.concealedCount_lt origin horigin hconc hproc

theorem c6_reveal_monotonicity_witness :
    reveal_tiles [Tile.Concealed, Tile.Concealed, Tile.Concealed, Tile.Concealed]
      0 {3} 2 2 =
      some [Tile.Open 1, Tile.Concealed, Tile.Concealed, Tile.Concealed] ∧
    concealedCount [Tile.Open 1, Tile.Concealed, Tile.Concealed, Tile.Concealed] <
      concealedCount [Tile.Concealed, Tile.Concealed, Tile.Concealed, Tile.Concealed] := by
  have h : reveal_tiles [Tile.Concealed, Tile.Concealed, Tile.Concealed, Tile.Concealed]
      0 {3} 2 2 =
      some [Tile.Open 1, Tile.Concealed, Tile.Concealed, Tile.Concealed] := by decide
  exact ⟨h, (c6_reveal_monotonicity _ {3} 2 2 0 _ (by decide) h).2 (by decide)⟩

/-- C7: the reveal cascade terminates for every board of the advertised length
and every valid origin: with fuel `concealedCount board + 2` (the fuel
`reveal_tiles` uses) the recursion always completes with a result. -/
theorem c7_reveal_terminates (board : List Tile) (mines : Finset Nat)
    (row_count col_count origin : Nat)
    (hlen : board.length = row_count * col_count)
    (horigin : origin < row_count * col_count) :
    (reveal_tiles board origin mines row_count col_count).isSome = true := by
  unfold reveal_tiles
  refine reveal_recoursively_isSome mines row_count col_count _ board [origin]
    hlen ?_ ?_
  · intro t ht
    have ht2 : t = origin := by simpa using ht
    subst ht2
    omega
  · omega

theorem c7_reveal_terminates_witness :
    (reveal_tiles [Tile.Concealed, Tile.Concealed, Tile.Concealed, Tile.Concealed]
      0 {3} 2 2).isSome = true :=
  c7_reveal_terminates _ {3} 2 2 0 (by decide) (by decide)

/-- C8: issuing the reveal operation on a cell that is already `Open` is a
no-op (the returned board is the input board), and an `open` action of the
session on such a cell (when it is not a mine) changes nothing either. -/
theorem c8_reveal_idempotent (board : List Tile) (mines : Finset Nat)
    (row_count col_count idx n : Nat)
    (h : board.getD idx Tile.Concealed = Tile.Open n) :
    reveal_tiles board idx mines row_count col_count = some board ∧
    (idx ∉ mines → session_open board idx mines row_count col_count =
      (board, OpenOutcome.Continued)) := by
  have hne : board.getD idx Tile.Concealed ≠ Tile.Concealed := by rw [h]; simp
  have h1 := reveal_tiles_noop_of_not_concealed board mines row_count col_count idx hne
  refine ⟨h1, fun hm => ?_⟩
  rw [session_open, if_neg hm, h1]
  rfl

theorem c8_reveal_idempotent_witness :
    reveal_tiles [Tile.Open 1, Tile.Concealed] 0 {1} 1 2 =
      some [Tile.Open 1, Tile.Concealed] ∧
    session_open [Tile.Open 1, Tile.Concealed] 0 {1} 1 2 =
      ([Tile.Open 1, Tile.Concealed], OpenOutcome.Continued) :=
  ⟨(c8_reveal_idempotent [Tile.Open 1, Tile.Concealed] {1} 1 2 0 1 (by decide)).1,
   (c8_reveal_idempotent [Tile.Open 1, Tile.Concealed] {1} 1 2 0 1 (by decide)).2
     (by decide)⟩

/-- C4, amended: an open intent on a flagged cell leaves the board unchanged
(the cell is never transitioned to `Open`), but the intent is not consumed by
the flag: if the flagged cell is not a mine the reveal is issued and no-ops,
and if it is a mine the session reports `Lost`. -/
theorem c4_flagged_open_passthrough (board : List Tile) (mines : Finset Nat)
    (row_count col_count idx : Nat)
    (h : board.getD idx Tile.Concealed = Tile.Flagged) :
    (idx ∉ mines → session_open board idx mines row_count col_count =
      (board, OpenOutcome.Continued)) ∧
    (idx ∈ mines → session_open board idx mines row_count col_count =
      (board, OpenOutcome.Lost)) := by
  have hne : board.getD idx Tile.Concealed ≠ Tile.Concealed := by rw [h]; simp
  have h1 := reveal_tiles_noop_of_not_concealed board mines row_count col_count idx hne
  constructor
  · intro hm
    rw [session_open, if_neg hm, h1]
    rfl
  · intro hm
    rw [session_open, if_pos hm]

theorem c4_flagged_open_passthrough_witness :
    session_open [Tile.Flagged] 0 (∅ : Finset Nat) 1 1 =
      ([Tile.Flagged], OpenOutcome.Continued) ∧
    session_open [Tile.Flagged] 0 ({0} : Finset Nat) 1 1 =
      ([Tile.Flagged], OpenOutcome.Lost) :=
  ⟨(c4_flagged_open_passthrough [Tile.Flagged] ∅ 1 1 0 (by decide)).1 (by decide),
   (c4_flagged_open_passthrough [Tile.Flagged] {0} 1 1 0 (by decide)).2 (by decide)⟩
